import Mathlib

/-
Shallow embedding of `src/backend/hourly_commit_collector.py` (the
collection-and-deduplication engine of the aigit repository).

Modelling conventions:
- HTTP responses are explicit data.  `safe_get` consumes a list of
  `Response` values: element `i` is the server's answer to the `i`-th
  (identical, retried) request; real time is an `Int` of epoch seconds
  threaded through explicitly.
- Above `safe_get`, every paginated endpoint is modelled as a
  `List (Except Err (Page _))`: element `i` is the outcome of the `i`-th
  page request along the rel="next" chain (`Except.error` = the request
  raised, which subsumes `safe_get`'s raise_for_status and network
  exceptions).  `Page.hasNext` records whether the response carried a
  Link header with a rel="next" relation.
- A parsed JSON page body is either a JSON array (`PageBody.list`) or a
  non-array value, represented by `PageBody.obj keys` (iterating a dict
  in Python yields its keys; iterating any other non-list value behaves
  the same for our purposes).
- Timestamps are `Int`; commit identifiers, names and logins are `String`.
- Python `None` is `Option.none`; `dict.get` with a default is `Option.getD`.
-/

namespace Aigit

/-- Exceptions that a request/parse step can raise.  `http` models
`response.raise_for_status()`, `typeMismatch` models the
`TypeError`/`AttributeError` raised when iterating a non-list JSON body and
subscripting its string keys, `netFail` models any other request exception. -/
inductive Err where
  | http (status : Nat)
  | typeMismatch
  | netFail
  deriving DecidableEq, Repr

/-- The slice of an HTTP response that `safe_get` inspects: the status code,
the `X-RateLimit-Remaining` header (parsed as an integer, `none` when the
header is absent) and the `X-RateLimit-Reset` header. -/
structure Response where
  status : Nat
  remaining : Option Int
  reset : Option Int
  deriving DecidableEq, Repr

/-- Line 44-47 of the source: a response is treated as rate-limited when its
status is 403, the `X-RateLimit-Remaining` header is present and parses to 0. -/
def rateLimited (r : Response) : Bool :=
  r.status == 403 && r.remaining == some 0

/-- Line 48-49: `reset_time = int(headers.get('X-RateLimit-Reset', time.time() + 60))`
and `sleep_time = max(reset_time - time.time(), 0) + 5`. -/
def sleepDuration (now : Int) (r : Response) : Int :=
  max ((r.reset.getD (now + 60)) - now) 0 + 5

/-- Result of `safe_get`: a returned response together with the total time
slept in rate-limit waits, an `HTTPError` raised by `raise_for_status`, or
`exhausted` when the modelled response stream ends while the loop would
still be retrying (the Python loop would keep issuing requests forever). -/
inductive GetResult where
  | ok (resp : Response) (slept : Int)
  | httpError (status : Nat)
  | exhausted
  deriving DecidableEq, Repr

/-- Adds rate-limit sleep time to a `GetResult`. -/
def addSleep (d : Int) : GetResult → GetResult
  | .ok resp s => .ok resp (s + d)
  | r => r

/-- `response.raise_for_status()` raises `HTTPError` exactly for client-error
and server-error statuses (4xx and 5xx); every other status falls through. -/
def raisesForStatus (status : Nat) : Bool :=
  decide (400 ≤ status) && decide (status < 600)

/-- Lines 35-58 of the source (`safe_get`): loop forever; on a 403 with zero
remaining quota sleep `max(reset - now, 0) + 5` seconds and retry the same
request; on any other non-200 status run `raise_for_status()`, which raises
only when the status is 4xx/5xx — a non-200 status outside that range (e.g.
304) falls through to `return response`. -/
def safe_get (now : Int) : List Response → GetResult
  | [] => .exhausted
  | r :: rest =>
    if rateLimited r then
      addSleep (sleepDuration now r) (safe_get (now + sleepDuration now r) rest)
    else if r.status == 200 then
      .ok r 0
    else if raisesForStatus r.status then
      .httpError r.status
    else
      .ok r 0

/-- A parsed JSON page body: a JSON array of items, or any non-array value
(`obj keys` — iterating it in Python yields the strings `keys`). -/
inductive PageBody (α : Type) where
  | list (items : List α)
  | obj (keys : List String)
  deriving DecidableEq, Repr

/-- One successfully fetched page: its parsed body, and whether the response
carried a `Link` header containing a rel="next" relation (lines 74-83,
101-110, 222-232 of the source all parse it the same way). -/
structure Page (α : Type) where
  body : PageBody α
  hasNext : Bool
  deriving DecidableEq, Repr

/-- One element of the members listing: `member.get("login")`.  GitHub member
objects always carry a login, so the field is a plain `String`. -/
structure MemberEntry where
  login : String
  deriving DecidableEq, Repr

/-- One element of the repository listing: `repo["name"]`. -/
structure RepoEntry where
  name : String
  deriving DecidableEq, Repr

/-- One element of the branch listing: `branch["name"]`. -/
structure BranchEntry where
  name : String
  deriving DecidableEq, Repr

/-- Lines 60-85 (`get_org_members`): drain pagination, accumulating
`member.get("login")` into a set.  There is no try/except and no list check
here: a non-empty non-array body raises (`member.get` on a string key) and
the error propagates to the caller; an empty non-array body just contributes
nothing.  The input list holds the successive page-request outcomes along
the rel="next" chain. -/
def get_org_members_go : List (Except Err (Page MemberEntry)) → Finset String →
    Except Err (Finset String)
  | [], acc => .ok acc
  | .error e :: _, _ => .error e
  | .ok p :: rest, acc =>
    match p.body with
    | .obj [] => if p.hasNext then get_org_members_go rest acc else .ok acc
    | .obj (_ :: _) => .error .typeMismatch
    | .list items =>
      let acc2 := items.foldl (fun a m => insert m.login a) acc
      if p.hasNext then get_org_members_go rest acc2 else .ok acc2

/-- Entry point of lines 60-85: start from the empty member set. -/
def get_org_members (pages : List (Except Err (Page MemberEntry))) :
    Except Err (Finset String) :=
  get_org_members_go pages ∅

/-- Lines 87-112 (`fetch_repositories`): drain pagination, appending
`repo["name"]` in page order.  Like `get_org_members` there is no guard: a
non-empty non-array body raises (`repo["name"]` on a string key) and the
error propagates. -/
def fetch_repositories_go : List (Except Err (Page RepoEntry)) → List String →
    Except Err (List String)
  | [], acc => .ok acc
  | .error e :: _, _ => .error e
  | .ok p :: rest, acc =>
    match p.body with
    | .obj [] => if p.hasNext then fetch_repositories_go rest acc else .ok acc
    | .obj (_ :: _) => .error .typeMismatch
    | .list items =>
      let acc2 := acc ++ items.map (fun r => r.name)
      if p.hasNext then fetch_repositories_go rest acc2 else .ok acc2

/-- Entry point of lines 87-112: start from the empty name list. -/
def fetch_repositories (pages : List (Except Err (Page RepoEntry))) :
    Except Err (List String) :=
  fetch_repositories_go pages []

/-- Lines 114-129 (`fetch_branches`): a SINGLE `safe_get` wrapped in
try/except — there is no pagination loop, so only the head of the page
stream is consulted and any rel="next" relation is ignored.  On a raised
error the except-branch returns the names accumulated so far, which is the
empty list (a non-array body raises on its first key, before any append). -/
def fetch_branches (pages : List (Except Err (Page BranchEntry))) : List String :=
  match pages with
  | [] => []
  | .error _ :: _ => []
  | .ok p :: _ =>
    match p.body with
    | .list items => items.map (fun b => b.name)
    | .obj _ => []

/-- Modelled from the spec: section 4.5 states `branches(org, repo)` "fully
drains pagination" like `repositories(org)` does.  This definition follows
those words (the same rel="next" walk the other enumerators implement); the
source's `fetch_branches` is compared against it. -/
def branches_spec_drain : List (Except Err (Page BranchEntry)) → List String
  | [] => []
  | .error _ :: _ => []
  | .ok p :: rest =>
    match p.body with
    | .obj _ => []
    | .list items =>
      items.map (fun b => b.name) ++ (if p.hasNext then branches_spec_drain rest else [])

/-- One element of `data.get("files", [])` in `fetch_commit_details`. -/
structure FileInfo where
  filename : Option String
  status : Option String
  additions : Option Int
  deletions : Option Int
  changes : Option Int
  patch : Option String
  deriving DecidableEq, Repr

/-- The parsed body of a commit-detail response: `data.get("stats", {})`
fields and `data.get("files", [])`. -/
structure DetailData where
  statsAdditions : Option Int
  statsDeletions : Option Int
  statsTotal : Option Int
  files : List FileInfo
  deriving DecidableEq, Repr

/-- A normalised per-file change record (lines 144-153). -/
structure FileChange where
  filename : String
  status : String
  additions : Int
  deletions : Int
  changes : Int
  patch : String
  deriving DecidableEq, Repr

/-- The detail record built in lines 155-163. -/
structure Detail where
  total_additions : Int
  total_deletions : Int
  total_changes : Int
  files : List FileChange
  files_changed : Nat
  deriving DecidableEq, Repr

/-- Lines 131-167 (`fetch_commit_details`): build the detail record from the
response body, defaulting every missing field; any raised error is caught
and `None` is returned.  The argument is the outcome of the single
(non-paginated) detail request for one SHA. -/
def fetch_commit_details : Except Err DetailData → Option Detail
  | .error _ => none
  | .ok d =>
    some { total_additions := d.statsAdditions.getD 0
           total_deletions := d.statsDeletions.getD 0
           total_changes := d.statsTotal.getD 0
           files := d.files.map (fun f =>
             { filename := f.filename.getD ""
               status := f.status.getD ""
               additions := f.additions.getD 0
               deletions := f.deletions.getD 0
               changes := f.changes.getD 0
               patch := f.patch.getD "" })
           files_changed := d.files.length }

/-- The top-level `"author"` object of a raw commit (a GitHub user object);
`login` is `author_obj.get("login")`. -/
structure AuthorObj where
  login : Option String
  deriving DecidableEq, Repr

/-- One element of a commit-listing page, holding exactly the fields the
source reads: `commit.get("author")`, `commit.get("sha")` (modelled as
always present), and from `commit.get("commit", {}).get("author", {})` the
name and date, plus the message. -/
structure RawCommit where
  sha : String
  author : Option AuthorObj
  authorName : Option String
  date : Option Int
  message : Option String
  deriving DecidableEq, Repr

/-- The `commit_info` dict built in lines 201-217, with the three
detail keys merged into one optional `Detail`. -/
structure CommitInfo where
  repo : String
  branch : String
  sha : String
  message : String
  author : String
  author_login : Option String
  date : Option Int
  commit_link : String
  details : Option Detail
  deriving DecidableEq, Repr

/-- Lines 192-195: with a member set, skip a commit whose `"author"` object
is absent or whose login is not in the set (`None` is never in a set of
strings); with `org_members is None`, keep everything. -/
def authorAllowed (mem : Option (Finset String)) (c : RawCommit) : Bool :=
  match mem with
  | none => true
  | some s =>
    match c.author with
    | none => false
    | some a =>
      match a.login with
      | none => false
      | some l => decide (l ∈ s)

/-- Lines 197-217: build the `commit_info` record for one raw commit; when
`include_details` is set, `fetch_commit_details` is invoked for the commit's
SHA (its outcome for this run is `detailResp sha`). -/
def toCommitInfo (org repo branch : String) (incDet : Bool)
    (detailResp : String → Except Err DetailData) (c : RawCommit) : CommitInfo :=
  { repo := repo
    branch := branch
    sha := c.sha
    message := c.message.getD ""
    author := c.authorName.getD "Unknown"
    author_login := match c.author with
      | none => some "Unknown"
      | some a => a.login
    date := c.date
    commit_link := "https://github.com/" ++ org ++ "/" ++ repo ++ "/commit/" ++ c.sha
    details := if incDet then fetch_commit_details (detailResp c.sha) else none }

/-- Lines 181-236, the pagination loop of `fetch_commits_for_branch`:
each iteration fetches a page (any raised error breaks, returning the
partial accumulators), treats a non-array body as end-of-data (line 186-187),
filters each commit by the member allow-list, appends the built records, and
follows the rel="next" link if present.  The second accumulator records the
SHAs for which `fetch_commit_details` was invoked, in invocation order. -/
def fetch_commits_go (org repo branch : String) (mem : Option (Finset String))
    (incDet : Bool) (detailResp : String → Except Err DetailData) :
    List (Except Err (Page RawCommit)) → List CommitInfo → List String →
    List CommitInfo × List String
  | [], cs, tr => (cs, tr)
  | .error _ :: _, cs, tr => (cs, tr)
  | .ok p :: rest, cs, tr =>
    match p.body with
    | .obj _ => (cs, tr)
    | .list raws =>
      let kept := raws.filter (authorAllowed mem)
      let cs2 := cs ++ kept.map (toCommitInfo org repo branch incDet detailResp)
      let tr2 := tr ++ (if incDet then kept.map (fun c => c.sha) else [])
      if p.hasNext then fetch_commits_go org repo branch mem incDet detailResp rest cs2 tr2
      else (cs2, tr2)

/-- Lines 169-238 (`fetch_commits_for_branch`).  `since`/`until` are placed
in the query parameters of the first request only (lines 176-179, 230) and
are never consulted client-side: the page stream already models the server's
answer to that parameterised request, so the two arguments do not influence
the computation.  Returns the commit records and the detail-fetch trace. -/
def fetch_commits_for_branch (org repo branch : String)
    (pages : List (Except Err (Page RawCommit))) (mem : Option (Finset String))
    (sinceP untilP : Option Int) (incDet : Bool)
    (detailResp : String → Except Err DetailData) : List CommitInfo × List String :=
  fetch_commits_go org repo branch mem incDet detailResp pages [] []

/-- The raw commits actually reached by the loop of `fetch_commits_go`:
everything before the first raised error / non-array body, following
rel="next" links.  Used to state which inputs the fetch processed. -/
def consumedRaws : List (Except Err (Page RawCommit)) → List RawCommit
  | [] => []
  | .error _ :: _ => []
  | .ok p :: rest =>
    match p.body with
    | .obj _ => []
    | .list raws => raws ++ (if p.hasNext then consumedRaws rest else [])

/-- Lines 10-20 `if some t then since ≤ t ∧ t < until` as a Bool: whether an
authored timestamp lies in the run's [since, until) window (an absent
timestamp is not in any window). -/
def inWindow (sinceT untilT : Int) : Option Int → Bool
  | none => false
  | some t => decide (sinceT ≤ t) && decide (t < untilT)

/-- The dedup aggregation state of `fetch_all_commits` (lines 242-243):
`uniq` models the insertion-ordered dict `unique_commits_dict` (SHA → first
seen commit record) and `branchTrack` the insertion-ordered dict
`commit_branches` (SHA → every observed branch, appended in order). -/
structure AggState where
  uniq : List (String × CommitInfo)
  branchTrack : List (String × List String)
  deriving DecidableEq, Repr

/-- Lookup in the `commit_branches` model (`commit_branches[sha]`; total
because the source only reads keys it has inserted). -/
def lookupBranches : List (String × List String) → String → List String
  | [], _ => []
  | (k, v) :: t, s => if k = s then v else lookupBranches t s

/-- Lines 272-274: `commit_branches.setdefault(sha, []).append(branch)` in
dict insertion order — append to the existing entry, else add a new entry at
the end. -/
def updateBranches : List (String × List String) → String → String →
    List (String × List String)
  | [], s, b => [(s, [b])]
  | (k, v) :: t, s, b =>
    if k = s then (k, v ++ [b]) :: t else (k, v) :: updateBranches t s b

/-- Lookup in the `unique_commits_dict` model. -/
def findCommit : List (String × CommitInfo) → String → Option CommitInfo
  | [], _ => none
  | (k, v) :: t, s => if k = s then some v else findCommit t s

/-- Lines 276-278: `if sha not in unique_commits_dict: unique_commits_dict[sha] = commit`
— keep the existing entry, else add a new one at the end. -/
def insertCommit : List (String × CommitInfo) → String → CommitInfo →
    List (String × CommitInfo)
  | [], s, c => [(s, c)]
  | (k, v) :: t, s, c =>
    if k = s then (k, v) :: t else (k, v) :: insertCommit t s c

/-- Lines 268-278, the body of the aggregation loop for one observed
(branch, commit) pair. -/
def addObservation (st : AggState) (ob : String × CommitInfo) : AggState :=
  { uniq := insertCommit st.uniq ob.2.sha ob.2
    branchTrack := updateBranches st.branchTrack ob.2.sha ob.1 }

/-- The whole aggregation pass: fold the observation stream (every
(branch, commit) pair produced by the repository/branch traversal, in
traversal order) through the loop body, starting from empty dicts. -/
def aggregate (obs : List (String × CommitInfo)) : AggState :=
  obs.foldl addObservation ⟨[], []⟩

/-- The final per-SHA record: the first-seen commit record plus the joined
`appears_in_branches` string (line 283). -/
structure FinalCommit where
  info : CommitInfo
  appears_in_branches : String
  deriving DecidableEq, Repr

/-- Lines 280-288: `list(unique_commits_dict.values())`, each annotated with
`", ".join(commit_branches[commit["sha"]])`. -/
def exportAgg (st : AggState) : List FinalCommit :=
  st.uniq.map (fun kc =>
    { info := kc.2
      appears_in_branches := String.intercalate ", " (lookupBranches st.branchTrack kc.2.sha) })

/-- The upstream API as seen by one run: the page-request outcome streams of
every endpoint, and the detail-request outcome per SHA. -/
structure Env where
  memberPages : List (Except Err (Page MemberEntry))
  repoPages : List (Except Err (Page RepoEntry))
  branchPages : String → List (Except Err (Page BranchEntry))
  commitPages : String → String → List (Except Err (Page RawCommit))
  detailResp : String → Except Err DetailData

/-- Lines 260-278 restricted to one branch: fetch its commits and tag each
record with the originating branch, keeping the detail-fetch trace. -/
def collectBranch (org repo branch : String) (env : Env) (mem : Option (Finset String))
    (incDet : Bool) : List (String × CommitInfo) × List String :=
  let r := fetch_commits_for_branch org repo branch (env.commitPages repo branch) mem
    none none incDet env.detailResp
  (r.1.map (fun c => (branch, c)), r.2)

/-- Lines 255-278 restricted to one repository: enumerate its branches and
collect every branch's tagged commits in order. -/
def collectRepo (org repo : String) (env : Env) (mem : Option (Finset String))
    (incDet : Bool) (acc : List (String × CommitInfo) × List String) :
    List (String × CommitInfo) × List String :=
  (fetch_branches (env.branchPages repo)).foldl
    (fun a branch =>
      let r := collectBranch org repo branch env mem incDet
      (a.1 ++ r.1, a.2 ++ r.2)) acc

/-- Lines 255-278: the full repository/branch traversal, producing the
observation stream fed to the aggregator and the detail-fetch trace. -/
def collectObs (org : String) (env : Env) (repos : List String)
    (mem : Option (Finset String)) (incDet : Bool) :
    List (String × CommitInfo) × List String :=
  repos.foldl (fun a repo => collectRepo org repo env mem incDet a) ([], [])

/-- Lines 240-288 (`fetch_all_commits`): resolve the member allow-list
unless `include_all_users`, enumerate repositories (both errors propagate —
no enclosing guard), traverse every repository/branch, aggregate by SHA and
export, also returning the detail-fetch trace. -/
def fetch_all_commits (org : String) (env : Env)
    (include_all_users include_details : Bool) :
    Except Err (List FinalCommit × List String) :=
  match (if include_all_users then Except.ok none
         else (get_org_members env.memberPages).map some) with
  | .error e => .error e
  | .ok mem =>
    match fetch_repositories env.repoPages with
    | .error e => .error e
    | .ok repos =>
      let r := collectObs org env repos mem include_details
      .ok (exportAgg (aggregate r.1), r.2)

/-- One output artifact of a run, named by kind (and the data the claims
inspect): the CSV tabular export, the Markdown narrative summary, one
per-commit detail file, or the metadata record carrying the total count. -/
inductive Artifact where
  | tabular (rows : Nat)
  | summaryFile
  | commitFile (repo sha8 : String)
  | metadata (total : Nat)
  deriving DecidableEq, Repr

/-- Line 328 / line 440: a per-commit file is written only when the commit
record carries a non-empty `files` list. -/
def hasFiles (c : FinalCommit) : Bool :=
  match c.info.details with
  | none => false
  | some d => !d.files.isEmpty

/-- Lines 407-462 (`save_hourly_report`): always writes the CSV and the
Markdown summary, then (when enabled and the set is non-empty) one file per
commit with file changes, then the metadata record with the total count. -/
def save_hourly_report_artifacts (commits : List FinalCommit)
    (saveIndividual : Bool) : List Artifact :=
  [Artifact.tabular commits.length, Artifact.summaryFile]
    ++ (if saveIndividual && !commits.isEmpty then
          (commits.filter hasFiles).map
            (fun c => Artifact.commitFile c.info.repo (c.info.sha.take 8))
        else [])
    ++ [Artifact.metadata commits.length]

/-- Lines 519-551 of `main`, after the fetch: with zero commits only the
metadata record (total 0) is written and the run returns; otherwise
`save_hourly_report` writes the full bundle. -/
def main_artifacts (commits : List FinalCommit) (saveIndividual : Bool) :
    List Artifact :=
  if commits.isEmpty then [Artifact.metadata 0]
  else save_hourly_report_artifacts commits saveIndividual

/- Concrete data used to evaluate the definitions on explicit inputs. -/

/-- A 403 response with zero remaining quota and reset epoch 60. -/
def rlResp : Response := { status := 403, remaining := some 0, reset := some 60 }

/-- A plain successful response. -/
def okResp : Response := { status := 200, remaining := some 4999, reset := none }

/-- A 304 Not Modified response: not a success status, yet outside the
4xx/5xx range that `raise_for_status` raises for. -/
def redirResp : Response := { status := 304, remaining := none, reset := none }

/-- A repository-listing page stream in which every page but the last
carries a rel="next" link: the shape of a fully paginated resource. -/
def mkRepoStream (firsts : List (List RepoEntry)) (last : List RepoEntry) :
    List (Except Err (Page RepoEntry)) :=
  firsts.map (fun items => Except.ok { body := PageBody.list items, hasNext := true })
    ++ [Except.ok { body := PageBody.list last, hasNext := false }]

/-- A two-page branch listing: the first page carries a rel="next" link. -/
def brStreamC3 : List (Except Err (Page BranchEntry)) :=
  [Except.ok { body := PageBody.list [{ name := "a" }], hasNext := true },
   Except.ok { body := PageBody.list [{ name := "b" }], hasNext := false }]

/-- A detail endpoint whose every request raises. -/
def dErr : String → Except Err DetailData := fun _ => Except.error Err.netFail

/-- A raw commit with no resolvable author identity. -/
def rawC1 : RawCommit :=
  { sha := "abc", author := none, authorName := some "Ann", date := some 5, message := some "m" }

/-- A run environment with one repository, two branches, and the same commit
(`rawC1`, SHA "abc") listed on both branches. -/
def envC1 : Env :=
  { memberPages := []
    repoPages := [Except.ok { body := PageBody.list [{ name := "r" }], hasNext := false }]
    branchPages := fun _ =>
      [Except.ok { body := PageBody.list [{ name := "b1" }, { name := "b2" }], hasNext := false }]
    commitPages := fun _ _ => [Except.ok { body := PageBody.list [rawC1], hasNext := false }]
    detailResp := dErr }

/-- The detail-fetch trace of the `envC1` run. -/
def traceC1 : List String :=
  ((fetch_all_commits "o" envC1 true true).map (fun p => p.2)).toOption.getD []

/-- A commit record with SHA "s" observed on branch "main" of repository "r1". -/
def infoC2a : CommitInfo :=
  { repo := "r1", branch := "main", sha := "s", message := "m1", author := "A"
    author_login := some "a", date := some 1, commit_link := "l1", details := none }

/-- The same commit (same SHA "s") observed on the equally-named branch
"main" of a different repository "r2". -/
def infoC2b : CommitInfo :=
  { repo := "r2", branch := "main", sha := "s", message := "m2", author := "B"
    author_login := some "b", date := some 2, commit_link := "l2", details := none }

/-- Two observations of SHA "s", both from a branch named "main". -/
def obsC2 : List (String × CommitInfo) := [("main", infoC2a), ("main", infoC2b)]

/-- A commit record with SHA "u". -/
def cW2a : CommitInfo :=
  { repo := "r", branch := "b1", sha := "u", message := "", author := "A"
    author_login := some "a", date := some 3, commit_link := "l", details := none }

/-- SHA "u" observed on the two branches "b1" and "b2". -/
def obsW2 : List (String × CommitInfo) := [("b1", cW2a), ("b2", cW2a)]

/-- The exported record for SHA "u" after aggregating `obsW2`. -/
def fcW2 : FinalCommit := { info := cW2a, appears_in_branches := "b1, b2" }

/-- SHA "t" as first observed, on branch "main" of repository "r1". -/
def cW10a : CommitInfo :=
  { repo := "r1", branch := "main", sha := "t", message := "mm", author := "A"
    author_login := some "a", date := some 4, commit_link := "la", details := none }

/-- The same SHA "t" observed again on branch "dev" of repository "r2". -/
def cW10b : CommitInfo :=
  { repo := "r2", branch := "dev", sha := "t", message := "nn", author := "B"
    author_login := some "b", date := some 4, commit_link := "lb", details := none }

/-- Cross-repository observations of the single SHA "t". -/
def obsW10 : List (String × CommitInfo) := [("main", cW10a), ("dev", cW10b)]

/-- A raw commit used for the partial-result evaluation. -/
def rawW5 : RawCommit :=
  { sha := "w5", author := none, authorName := some "Bea", date := some 7, message := some "x" }

/-- A well-formed commit page carrying a rel="next" link. -/
def pW5 : Page RawCommit := { body := PageBody.list [rawW5], hasNext := true }

/-- A raw commit with no author object at all. -/
def rawW6 : RawCommit :=
  { sha := "z", author := none, authorName := none, date := none, message := none }

/-- A raw commit authored at epoch 99, outside the window [10, 20). -/
def rawC7 : RawCommit :=
  { sha := "c7", author := none, authorName := none, date := some 99, message := none }

/-- A raw commit authored at epoch 15, inside the window [10, 20). -/
def rawW7 : RawCommit :=
  { sha := "w7", author := none, authorName := none, date := some 15, message := none }

/- ------------------------------------------------------------------ -/
/- Theorems                                                           -/
/- ------------------------------------------------------------------ -/

/-- A returned response is never one `raise_for_status` would raise for,
and never a rate-limited one. -/
theorem safe_get_ok_status :
    ∀ (rs : List Response) (now : Int) (resp : Response) (s : Int),
      safe_get now rs = GetResult.ok resp s →
      raisesForStatus resp.status = false ∧ rateLimited resp = false := by
  intro rs
  induction rs with
  | nil =>
    intro now resp s h
    simp [safe_get] at h
  | cons r rest ih =>
    intro now resp s h
    by_cases hr : rateLimited r
    · rw [safe_get, if_pos hr] at h
      cases hrec : safe_get (now + sleepDuration now r) rest with
      | ok r2 s2 =>
        rw [hrec] at h
        simp only [addSleep] at h
        cases h
        exact ih _ _ _ hrec
      | httpError st => rw [hrec] at h; simp [addSleep] at h
      | exhausted => rw [hrec] at h; simp [addSleep] at h
    · rw [safe_get, if_neg hr] at h
      by_cases hs : (r.status == 200) = true
      · rw [if_pos hs] at h
        cases h
        have h200 : r.status = 200 := eq_of_beq hs
        constructor
        · rw [raisesForStatus, h200]
          rfl
        · rw [rateLimited, h200]
          rfl
      · rw [if_neg hs] at h
        by_cases hraise : raisesForStatus r.status = true
        · rw [if_pos hraise] at h
          simp at h
        · rw [if_neg hraise] at h
          cases h
          exact ⟨Bool.eq_false_iff.mpr hraise, Bool.eq_false_iff.mpr hr⟩

/-- Claim C4 counterexample: a response whose status is 304 — not a success
status — is RETURNED to the caller, not raised: `raise_for_status` raises
only for 4xx/5xx statuses, so "returns iff success" fails on the code. -/
theorem safe_get_non_success_returned_counterexample :
    safe_get 0 [redirResp] = GetResult.ok redirResp 0
    ∧ redirResp.status ≠ 200 := ⟨rfl, by decide⟩

/-- Claim C4 as amended: `safe_get` never surfaces a rate-limited response
nor a 4xx/5xx response: a 403 carrying a zero remaining-quota header makes
it sleep `max(reset - now, 0) + 5` seconds and retry the identical request;
any other 4xx/5xx status (including a 403 without a zero remaining-quota
header) is raised to the caller; every remaining response — status 200, but
also a non-success status outside the 4xx/5xx range such as 304 — is
returned to the caller. -/
theorem safe_get_rate_limit_spec (now : Int) (r : Response) (rest : List Response) :
    (∀ resp s, safe_get now (r :: rest) = GetResult.ok resp s →
        raisesForStatus resp.status = false ∧ rateLimited resp = false)
    ∧ (rateLimited r = true →
        safe_get now (r :: rest)
          = addSleep (max ((r.reset.getD (now + 60)) - now) 0 + 5)
              (safe_get (now + sleepDuration now r) rest))
    ∧ (rateLimited r = false → raisesForStatus r.status = false →
        safe_get now (r :: rest) = GetResult.ok r 0)
    ∧ (rateLimited r = false → raisesForStatus r.status = true →
        safe_get now (r :: rest) = GetResult.httpError r.status) := by
  refine ⟨fun resp s h => safe_get_ok_status _ _ _ _ h, fun hr => ?_,
    fun hr hs => ?_, fun hr hs => ?_⟩
  · rw [safe_get, if_pos hr, sleepDuration]
  · by_cases h200 : (r.status == 200) = true
    · rw [safe_get, if_neg (by simp [hr]), if_pos h200]
    · rw [safe_get, if_neg (by simp [hr]), if_neg h200, if_neg (by simp [hs])]
  · have h200 : ¬ (r.status == 200) = true := by
      intro hc
      have : r.status = 200 := eq_of_beq hc
      rw [raisesForStatus, this] at hs
      exact absurd hs (by decide)
    rw [safe_get, if_neg (by simp [hr]), if_neg h200, if_pos hs]

/-- Witness for C4 (amended): a rate-limited response (reset epoch 60, at
time 0) followed by a success yields the success after sleeping 65 seconds. -/
theorem safe_get_rate_limit_spec_witness :
    safe_get 0 [rlResp, okResp] = GetResult.ok okResp 65 := by
  have h2 := (safe_get_rate_limit_spec 0 rlResp [okResp]).2.1 (by rfl)
  have h3 := (safe_get_rate_limit_spec (0 + sleepDuration 0 rlResp) okResp []).2.2.1
    (by rfl) (by rfl)
  rw [h2, h3]
  rfl

/-- Claim C9: with zero commits found, the only artifact written is the
metadata record, with total count zero — no tabular export, no narrative
summary, no per-commit files. -/
theorem zero_commits_metadata_only (saveIndividual : Bool) :
    main_artifacts [] saveIndividual = [Artifact.metadata 0] := rfl

/-- A fully paginated repository listing is drained completely. -/
theorem fetch_repositories_go_drain (firsts : List (List RepoEntry))
    (last : List RepoEntry) :
    ∀ acc, fetch_repositories_go (mkRepoStream firsts last) acc
      = Except.ok (acc ++ (firsts.flatten ++ last).map (fun r => r.name)) := by
  induction firsts with
  | nil =>
    intro acc
    simp [mkRepoStream, fetch_repositories_go]
  | cons f fs ih =>
    intro acc
    have hstep : fetch_repositories_go (mkRepoStream (f :: fs) last) acc
        = fetch_repositories_go (mkRepoStream fs last) (acc ++ f.map (fun r => r.name)) := rfl
    rw [hstep, ih]
    simp

/-- Claim C3 (evaluation): `fetch_branches` does NOT drain pagination — on a
two-page branch listing whose first page carries a rel="next" link it
returns only the first page's names, while the spec's full drain returns
both; `fetch_repositories`, by contrast, does drain every page. -/
theorem branch_pagination_not_drained :
    fetch_branches brStreamC3 = ["a"]
    ∧ branches_spec_drain brStreamC3 = ["a", "b"]
    ∧ fetch_branches brStreamC3 ≠ branches_spec_drain brStreamC3
    ∧ ∀ (firsts : List (List RepoEntry)) (last : List RepoEntry),
        fetch_repositories (mkRepoStream firsts last)
          = Except.ok ((firsts.flatten ++ last).map (fun r => r.name)) := by
  refine ⟨rfl, rfl, by decide, fun firsts last => ?_⟩
  rw [fetch_repositories, fetch_repositories_go_drain]
  simp

/-- The commit-page loop is the filter-and-map of the consumed raw commits,
appended to the accumulators; the detail-fetch trace is the kept SHAs. -/
theorem fetch_commits_go_spec (org repo branch : String) (mem : Option (Finset String))
    (incDet : Bool) (d : String → Except Err DetailData) :
    ∀ (pages : List (Except Err (Page RawCommit))) (cs : List CommitInfo) (tr : List String),
      fetch_commits_go org repo branch mem incDet d pages cs tr
        = (cs ++ ((consumedRaws pages).filter (authorAllowed mem)).map
              (toCommitInfo org repo branch incDet d),
           tr ++ (if incDet then ((consumedRaws pages).filter (authorAllowed mem)).map
              (fun c => c.sha) else [])) := by
  intro pages
  induction pages with
  | nil =>
    intro cs tr
    simp [fetch_commits_go, consumedRaws]
  | cons x rest ih =>
    intro cs tr
    cases x with
    | error e => simp [fetch_commits_go, consumedRaws]
    | ok p =>
      cases hb : p.body with
      | obj keys =>
        simp [fetch_commits_go, consumedRaws, hb]
      | list raws =>
        cases hn : p.hasNext with
        | false =>
          simp [fetch_commits_go, consumedRaws, hb, hn]
        | true =>
          simp only [fetch_commits_go, consumedRaws, hb, hn, if_true]
          rw [ih]
          cases incDet with
          | false => simp
          | true => simp

/-- A page stream whose processing stops immediately (raised error or
non-array body at the head) leaves the accumulators untouched. -/
theorem fetch_commits_go_stops (org repo branch : String) (mem : Option (Finset String))
    (incDet : Bool) (d : String → Except Err DetailData)
    (tail : List (Except Err (Page RawCommit)))
    (h : consumedRaws tail = []) :
    ∀ cs tr, fetch_commits_go org repo branch mem incDet d tail cs tr = (cs, tr) := by
  intro cs tr
  rw [fetch_commits_go_spec, h]
  cases incDet <;> simp

/-- Processing a stream of well-formed linked pages followed by anything
whose head stops the loop consumes exactly the raw commits of the prefix. -/
theorem consumedRaws_append_stop (good : List (Page RawCommit))
    (hgood : ∀ p ∈ good, p.hasNext = true ∧ ∃ raws, p.body = PageBody.list raws)
    (tail : List (Except Err (Page RawCommit))) (htail : consumedRaws tail = []) :
    consumedRaws (good.map Except.ok ++ tail) = consumedRaws (good.map Except.ok) := by
  induction good with
  | nil => simpa [consumedRaws] using htail
  | cons p ps ih =>
    obtain ⟨hn, raws, hb⟩ := hgood p (List.mem_cons_self p ps)
    have ih2 := ih (fun q hq => hgood q (List.mem_cons_of_mem p hq))
    simp only [List.map_cons, List.cons_append, consumedRaws, hb, hn, if_true, List.append_eq]
    rw [ih2]

/-- An erroring page request consumes nothing. -/
theorem consumedRaws_error (e : Err) (rest : List (Except Err (Page RawCommit))) :
    consumedRaws (Except.error e :: rest) = [] := rfl

/-- A non-array page body consumes nothing. -/
theorem consumedRaws_obj (keys : List String) (hn : Bool)
    (rest : List (Except Err (Page RawCommit))) :
    consumedRaws (Except.ok { body := PageBody.obj keys, hasNext := hn } :: rest) = [] := rfl

/-- Claim C5: per-scope failures stay in their scope — an error while
fetching a repository's branch list makes `fetch_branches` return the empty
sequence instead of propagating, and an error on a commit page mid-pagination
makes `fetch_commits_for_branch` return exactly the records built from the
pages already fetched (with the matching detail-fetch trace). -/
theorem per_scope_failure_isolation :
    (∀ (e : Err) (rest : List (Except Err (Page BranchEntry))),
        fetch_branches (Except.error e :: rest) = [])
    ∧ (∀ (org repo branch : String) (good : List (Page RawCommit)) (e : Err)
        (rest : List (Except Err (Page RawCommit))) (mem : Option (Finset String))
        (s1 s2 : Option Int) (incDet : Bool) (d : String → Except Err DetailData),
        (∀ p ∈ good, p.hasNext = true ∧ ∃ raws, p.body = PageBody.list raws) →
        fetch_commits_for_branch org repo branch
            (good.map Except.ok ++ Except.error e :: rest) mem s1 s2 incDet d
          = (((consumedRaws (good.map Except.ok)).filter (authorAllowed mem)).map
                (toCommitInfo org repo branch incDet d),
             if incDet then ((consumedRaws (good.map Except.ok)).filter
                (authorAllowed mem)).map (fun c => c.sha) else [])) := by
  constructor
  · intro e rest
    rfl
  · intro org repo branch good e rest mem s1 s2 incDet d hgood
    rw [fetch_commits_for_branch, fetch_commits_go_spec,
      consumedRaws_append_stop good hgood _ (consumedRaws_error e rest)]
    simp

/-- Witness for C5: one good page then an error yields exactly the good
page's record and nothing else. -/
theorem per_scope_failure_isolation_witness :
    fetch_commits_for_branch "o" "r" "b" [Except.ok pW5, Except.error Err.netFail]
        none none none false dErr
      = ([toCommitInfo "o" "r" "b" false dErr rawW5], []) := by
  have hgood : ∀ p ∈ [pW5], p.hasNext = true ∧ ∃ raws, p.body = PageBody.list raws := by
    intro p hp
    rw [List.mem_singleton] at hp
    subst hp
    exact ⟨rfl, [rawW5], rfl⟩
  have h := per_scope_failure_isolation.2 "o" "r" "b" [pW5] Err.netFail [] none none none
    false dErr hgood
  exact h.trans (by rfl)

/-- With the allow-list enabled, a raw commit passes iff its author object
is present with a login in the set. -/
theorem authorAllowed_some_iff (s : Finset String) (c : RawCommit) :
    authorAllowed (some s) c = true
      ↔ ∃ a, c.author = some a ∧ ∃ l, a.login = some l ∧ l ∈ s := by
  cases hc : c.author with
  | none => simp [authorAllowed, hc]
  | some a =>
    cases hl : a.login with
    | none => simp [authorAllowed, hc, hl]
    | some l => simp [authorAllowed, hc, hl]

/-- Claim C6: with the membership allow-list enabled, a commit is yielded
only if its author identity is present and belongs to the set; with the
allow-list disabled, every consumed raw commit is yielded, including those
with no resolvable author identity. -/
theorem membership_filter_spec :
    (∀ (org repo branch : String) (pages : List (Except Err (Page RawCommit)))
        (s : Finset String) (s1 s2 : Option Int) (incDet : Bool)
        (d : String → Except Err DetailData) (c : CommitInfo),
        c ∈ (fetch_commits_for_branch org repo branch pages (some s) s1 s2 incDet d).1 →
        ∃ raw ∈ consumedRaws pages,
          (∃ a, raw.author = some a ∧ ∃ l, a.login = some l ∧ l ∈ s)
          ∧ c = toCommitInfo org repo branch incDet d raw)
    ∧ (∀ (org repo branch : String) (pages : List (Except Err (Page RawCommit)))
        (s1 s2 : Option Int) (incDet : Bool) (d : String → Except Err DetailData)
        (raw : RawCommit), raw ∈ consumedRaws pages →
        toCommitInfo org repo branch incDet d raw
          ∈ (fetch_commits_for_branch org repo branch pages none s1 s2 incDet d).1) := by
  constructor
  · intro org repo branch pages s s1 s2 incDet d c hc
    rw [fetch_commits_for_branch, fetch_commits_go_spec] at hc
    simp only [List.nil_append, List.mem_map, List.mem_filter] at hc
    obtain ⟨raw, ⟨hmem, hall⟩, heq⟩ := hc
    exact ⟨raw, hmem, (authorAllowed_some_iff s raw).mp hall, heq.symm⟩
  · intro org repo branch pages s1 s2 incDet d raw hraw
    rw [fetch_commits_for_branch, fetch_commits_go_spec]
    simp only [List.nil_append, List.mem_map, List.mem_filter]
    exact ⟨raw, ⟨hraw, rfl⟩, rfl⟩

/-- Witness for C6: with the allow-list disabled, a commit with no author
object at all is yielded. -/
theorem membership_filter_spec_witness :
    toCommitInfo "o" "r" "b" false dErr rawW6
      ∈ (fetch_commits_for_branch "o" "r" "b"
          [Except.ok { body := PageBody.list [rawW6], hasNext := false }]
          none none none false dErr).1 :=
  membership_filter_spec.2 "o" "r" "b"
    [Except.ok { body := PageBody.list [rawW6], hasNext := false }]
    none none false dErr rawW6 (by decide)

/-- Claim C7 counterexample: with window [10, 20) passed as `since`/`until`,
a page containing a commit authored at epoch 99 still has that commit
yielded — the fetch performs no client-side timestamp filtering. -/
theorem window_filter_counterexample :
    ((fetch_commits_for_branch "o" "r" "b"
        [Except.ok { body := PageBody.list [rawC7], hasNext := false }]
        none (some 10) (some 20) false dErr).1).map (fun c => inWindow 10 20 c.date)
      = [false] := by decide

/-- Claim C7 as amended: the fetch yields only commits taken from the pages
the upstream returned, so whenever every consumed raw commit's authored
timestamp lies in [since, until) — as a server honouring the first-request
`since`/`until` parameters guarantees — every yielded commit's timestamp
does too. -/
theorem window_filter_amended (org repo branch : String)
    (pages : List (Except Err (Page RawCommit))) (mem : Option (Finset String))
    (sinceT untilT : Int) (incDet : Bool) (d : String → Except Err DetailData)
    (h : ∀ raw ∈ consumedRaws pages, inWindow sinceT untilT raw.date = true) :
    ∀ c ∈ (fetch_commits_for_branch org repo branch pages mem
        (some sinceT) (some untilT) incDet d).1,
      inWindow sinceT untilT c.date = true := by
  intro c hc
  rw [fetch_commits_for_branch, fetch_commits_go_spec] at hc
  simp only [List.nil_append, List.mem_map, List.mem_filter] at hc
  obtain ⟨raw, ⟨hmem, _⟩, heq⟩ := hc
  rw [← heq]
  exact h raw hmem

/-- Witness for C7 (amended): a page whose single commit is authored at
epoch 15 yields only in-window commits for the window [10, 20). -/
theorem window_filter_amended_witness :
    inWindow 10 20 (toCommitInfo "o" "r" "b" false dErr rawW7).date = true :=
  window_filter_amended "o" "r" "b"
    [Except.ok { body := PageBody.list [rawW7], hasNext := false }]
    none 10 20 false dErr (by decide)
    (toCommitInfo "o" "r" "b" false dErr rawW7) (by decide)

/-- Claim C8 counterexample: a non-sequence page body does NOT terminate
every paginated fetch gracefully — the member listing and the repository
listing both raise on it instead of treating it as end-of-data. -/
theorem nonlist_body_counterexample :
    get_org_members [Except.ok { body := PageBody.obj ["documentation_url"], hasNext := false }]
      = Except.error Err.typeMismatch
    ∧ fetch_repositories [Except.ok { body := PageBody.obj ["documentation_url"], hasNext := false }]
      = Except.error Err.typeMismatch := ⟨rfl, rfl⟩

/-- Claim C8 as amended: only the commit-list fetch treats a non-sequence
page body as end-of-data (terminating without error and returning the items
of earlier pages); the member-list and repository-list fetches raise on a
non-empty non-sequence body, and the error propagates to the caller. -/
theorem nonlist_body_amended :
    (∀ (org repo branch : String) (good : List (Page RawCommit)) (keys : List String)
        (hn : Bool) (rest : List (Except Err (Page RawCommit)))
        (mem : Option (Finset String)) (s1 s2 : Option Int) (incDet : Bool)
        (d : String → Except Err DetailData),
        (∀ p ∈ good, p.hasNext = true ∧ ∃ raws, p.body = PageBody.list raws) →
        fetch_commits_for_branch org repo branch
            (good.map Except.ok ++ Except.ok { body := PageBody.obj keys, hasNext := hn } :: rest)
            mem s1 s2 incDet d
          = fetch_commits_for_branch org repo branch (good.map Except.ok) mem s1 s2 incDet d)
    ∧ (∀ (k : String) (ks : List String) (hn : Bool)
        (rest : List (Except Err (Page MemberEntry))),
        get_org_members (Except.ok { body := PageBody.obj (k :: ks), hasNext := hn } :: rest)
          = Except.error Err.typeMismatch)
    ∧ (∀ (k : String) (ks : List String) (hn : Bool)
        (rest : List (Except Err (Page RepoEntry))),
        fetch_repositories (Except.ok { body := PageBody.obj (k :: ks), hasNext := hn } :: rest)
          = Except.error Err.typeMismatch) := by
  refine ⟨fun org repo branch good keys hn rest mem s1 s2 incDet d hgood => ?_,
    fun k ks hn rest => rfl, fun k ks hn rest => rfl⟩
  rw [fetch_commits_for_branch, fetch_commits_for_branch, fetch_commits_go_spec,
    fetch_commits_go_spec,
    consumedRaws_append_stop good hgood _ (consumedRaws_obj keys hn rest)]

/-- Witness for C8 (amended): one good page followed by a non-sequence body
returns exactly the good page's record, without error. -/
theorem nonlist_body_amended_witness :
    fetch_commits_for_branch "o" "r" "b"
        [Except.ok pW5, Except.ok { body := PageBody.obj ["message"], hasNext := false }]
        none none none false dErr
      = ([toCommitInfo "o" "r" "b" false dErr rawW5], []) := by
  have hgood : ∀ p ∈ [pW5], p.hasNext = true ∧ ∃ raws, p.body = PageBody.list raws := by
    intro p hp
    rw [List.mem_singleton] at hp
    subst hp
    exact ⟨rfl, [rawW5], rfl⟩
  have h := nonlist_body_amended.1 "o" "r" "b" [pW5] ["message"] false [] none none none
    false dErr hgood
  exact h.trans (by rfl)

/-- A property preserved by each fold step holds of the fold. -/
theorem foldl_preserve {α β : Type} (P : β → Prop) (step : β → α → β)
    (hstep : ∀ b a, P b → P (step b a)) :
    ∀ (l : List α) (b : β), P b → P (l.foldl step b) := by
  intro l
  induction l with
  | nil => intro b hb; exact hb
  | cons a t ih => intro b hb; exact ih _ (hstep b a hb)

/-- Appending a branch under a key extends exactly that key's list. -/
theorem lookupBranches_update_self (l : List (String × List String)) (k b : String) :
    lookupBranches (updateBranches l k b) k = lookupBranches l k ++ [b] := by
  induction l with
  | nil => simp [updateBranches, lookupBranches]
  | cons kv t ih =>
    obtain ⟨k2, v⟩ := kv
    by_cases h : k2 = k
    · subst h; simp [updateBranches, lookupBranches]
    · simp [updateBranches, lookupBranches, h, ih]

/-- Appending a branch under a key leaves other keys' lists unchanged. -/
theorem lookupBranches_update_ne (l : List (String × List String)) (k b s : String)
    (hne : s ≠ k) :
    lookupBranches (updateBranches l k b) s = lookupBranches l s := by
  induction l with
  | nil =>
    show (if k = s then [b] else lookupBranches [] s) = lookupBranches [] s
    rw [if_neg (Ne.symm hne)]
  | cons kv t ih =>
    obtain ⟨k2, v⟩ := kv
    show lookupBranches (if k2 = k then (k2, v ++ [b]) :: t else (k2, v) :: updateBranches t k b) s = _
    by_cases h : k2 = k
    · rw [if_pos h]
      show (if k2 = s then v ++ [b] else lookupBranches t s)
        = if k2 = s then v else lookupBranches t s
      have hk2s : ¬ k2 = s := fun hh => hne (hh.symm.trans h)
      rw [if_neg hk2s, if_neg hk2s]
    · rw [if_neg h]
      show (if k2 = s then v else lookupBranches (updateBranches t k b) s)
        = if k2 = s then v else lookupBranches t s
      by_cases h2 : k2 = s
      · rw [if_pos h2, if_pos h2]
      · rw [if_neg h2, if_neg h2]
        exact ih

/-- After aggregating, each SHA's tracked branch list is the initial one
followed by the originating branch of every observation of that SHA, in
observation order. -/
theorem lookupBranches_fold (obs : List (String × CommitInfo)) :
    ∀ (st : AggState) (s : String),
      lookupBranches (obs.foldl addObservation st).branchTrack s
        = lookupBranches st.branchTrack s
          ++ (obs.filter (fun o => o.2.sha == s)).map (fun o => o.1) := by
  induction obs with
  | nil => intro st s; simp
  | cons ob t ih =>
    intro st s
    rw [List.foldl_cons, ih]
    by_cases h : ob.2.sha = s
    · have h1 : lookupBranches (addObservation st ob).branchTrack s
          = lookupBranches st.branchTrack s ++ [ob.1] := by
        show lookupBranches (updateBranches st.branchTrack ob.2.sha ob.1) s = _
        rw [h, lookupBranches_update_self]
      have h2 : (ob :: t).filter (fun o => o.2.sha == s)
          = ob :: t.filter (fun o => o.2.sha == s) := by
        simp [List.filter_cons, h]
      rw [h1, h2]
      simp
    · have h1 : lookupBranches (addObservation st ob).branchTrack s
          = lookupBranches st.branchTrack s := by
        show lookupBranches (updateBranches st.branchTrack ob.2.sha ob.1) s = _
        exact lookupBranches_update_ne _ _ _ _ (fun hh => h hh.symm)
      have h2 : (ob :: t).filter (fun o => o.2.sha == s)
          = t.filter (fun o => o.2.sha == s) := by
        simp [List.filter_cons, h]
      rw [h1, h2]

/-- Inserting under a key makes lookup of that key return the prior value if
present, else the inserted one. -/
theorem findCommit_insert_self (l : List (String × CommitInfo)) (k : String) (c : CommitInfo) :
    findCommit (insertCommit l k c) k = some ((findCommit l k).getD c) := by
  induction l with
  | nil => simp [insertCommit, findCommit]
  | cons kv t ih =>
    obtain ⟨k2, v⟩ := kv
    by_cases h : k2 = k
    · subst h; simp [insertCommit, findCommit]
    · simp [insertCommit, findCommit, h, ih]

/-- Inserting under a key leaves lookups of other keys unchanged. -/
theorem findCommit_insert_ne (l : List (String × CommitInfo)) (k : String) (c : CommitInfo)
    (s : String) (hne : s ≠ k) :
    findCommit (insertCommit l k c) s = findCommit l s := by
  induction l with
  | nil =>
    show (if k = s then some c else findCommit [] s) = findCommit [] s
    rw [if_neg (Ne.symm hne)]
  | cons kv t ih =>
    obtain ⟨k2, v⟩ := kv
    show findCommit (if k2 = k then (k2, v) :: t else (k2, v) :: insertCommit t k c) s = _
    by_cases h : k2 = k
    · rw [if_pos h]
    · rw [if_neg h]
      show (if k2 = s then some v else findCommit (insertCommit t k c) s)
        = if k2 = s then some v else findCommit t s
      by_cases h2 : k2 = s
      · rw [if_pos h2, if_pos h2]
      · rw [if_neg h2, if_neg h2]
        exact ih

/-- After aggregating, the record stored under a SHA is the initial one if
present, else the FIRST observation of that SHA. -/
theorem findCommit_fold (obs : List (String × CommitInfo)) :
    ∀ (st : AggState) (s : String),
      findCommit (obs.foldl addObservation st).uniq s
        = (findCommit st.uniq s).or
            ((obs.find? (fun o => o.2.sha == s)).map (fun o => o.2)) := by
  induction obs with
  | nil => intro st s; simp [Option.or_none]
  | cons ob t ih =>
    intro st s
    rw [List.foldl_cons, ih]
    by_cases h : ob.2.sha = s
    · have h1 : findCommit (addObservation st ob).uniq s
          = some ((findCommit st.uniq s).getD ob.2) := by
        show findCommit (insertCommit st.uniq ob.2.sha ob.2) s = _
        rw [h, findCommit_insert_self]
      have h2 : (ob :: t).find? (fun o => o.2.sha == s) = some ob :=
        List.find?_cons_of_pos _ (by simp [h])
      rw [h1, h2]
      cases hf : findCommit st.uniq s <;> simp [hf, Option.or]
    · have h1 : findCommit (addObservation st ob).uniq s = findCommit st.uniq s := by
        show findCommit (insertCommit st.uniq ob.2.sha ob.2) s = _
        exact findCommit_insert_ne _ _ _ _ (fun hh => h hh.symm)
      have h2 : (ob :: t).find? (fun o => o.2.sha == s) = t.find? (fun o => o.2.sha == s) :=
        List.find?_cons_of_neg _ (by simp [h])
      rw [h1, h2]

/-- Lookup fails exactly when the key is absent. -/
theorem findCommit_eq_none_iff (l : List (String × CommitInfo)) (s : String) :
    findCommit l s = none ↔ s ∉ l.map Prod.fst := by
  induction l with
  | nil => simp [findCommit]
  | cons kv t ih =>
    obtain ⟨k2, v⟩ := kv
    show (if k2 = s then some v else findCommit t s) = none ↔ _
    rw [List.map_cons, List.mem_cons]
    by_cases h : k2 = s
    · rw [if_pos h]
      simp [h]
    · rw [if_neg h, ih]
      constructor
      · intro hn
        rw [not_or]
        exact ⟨fun hh => h hh.symm, hn⟩
      · intro hn
        rw [not_or] at hn
        exact hn.2

/-- Every key present after an insert was present before or is the inserted key. -/
theorem mem_keys_insertCommit (l : List (String × CommitInfo)) (k : String)
    (c : CommitInfo) (x : String) (hx : x ∈ (insertCommit l k c).map Prod.fst) :
    x ∈ l.map Prod.fst ∨ x = k := by
  induction l with
  | nil => simpa [insertCommit] using hx
  | cons kv t ih =>
    obtain ⟨k2, v⟩ := kv
    by_cases h : k2 = k
    · subst h
      simp only [insertCommit, if_pos rfl] at hx
      exact Or.inl hx
    · simp only [insertCommit, if_neg h, List.map_cons, List.mem_cons] at hx ⊢
      rcases hx with hx | hx
      · exact Or.inl (Or.inl hx)
      · rcases ih hx with hh | hh
        · exact Or.inl (Or.inr hh)
        · exact Or.inr hh

/-- Insertion preserves distinctness of the keys. -/
theorem nodup_insertCommit (l : List (String × CommitInfo)) (k : String) (c : CommitInfo)
    (h : (l.map Prod.fst).Nodup) : ((insertCommit l k c).map Prod.fst).Nodup := by
  induction l with
  | nil => simp [insertCommit]
  | cons kv t ih =>
    obtain ⟨k2, v⟩ := kv
    rw [List.map_cons, List.nodup_cons] at h
    obtain ⟨hk2, ht⟩ := h
    show ((if k2 = k then (k2, v) :: t else (k2, v) :: insertCommit t k c).map Prod.fst).Nodup
    by_cases hkk : k2 = k
    · rw [if_pos hkk, List.map_cons, List.nodup_cons]
      exact ⟨hk2, ht⟩
    · rw [if_neg hkk, List.map_cons, List.nodup_cons]
      refine ⟨?_, ih ht⟩
      intro hx
      rcases mem_keys_insertCommit t k c k2 hx with hh | hh
      · exact hk2 hh
      · exact hkk hh

/-- Insertion under the record's own SHA preserves the key-is-SHA invariant. -/
theorem entries_insertCommit (l : List (String × CommitInfo)) (k : String) (c : CommitInfo)
    (hc : c.sha = k) (h : ∀ kc ∈ l, kc.2.sha = kc.1) :
    ∀ kc ∈ insertCommit l k c, kc.2.sha = kc.1 := by
  induction l with
  | nil =>
    intro kc hkc
    simp only [insertCommit, List.mem_singleton] at hkc
    subst hkc
    exact hc
  | cons kv t ih =>
    obtain ⟨k2, v⟩ := kv
    by_cases hkk : k2 = k
    · subst hkk
      simpa only [insertCommit, if_pos rfl] using h
    · intro kc hkc
      simp only [insertCommit, if_neg hkk, List.mem_cons] at hkc
      rcases hkc with hkc | hkc
      · exact h kc (hkc ▸ List.mem_cons_self _ _)
      · exact ih (fun x hx => h x (List.mem_cons_of_mem _ hx)) kc hkc

/-- Aggregation invariant: every stored entry's key is its record's SHA. -/
theorem agg_entry_key (obs : List (String × CommitInfo)) :
    ∀ kc ∈ (aggregate obs).uniq, kc.2.sha = kc.1 := by
  refine foldl_preserve (fun st : AggState => ∀ kc ∈ st.uniq, kc.2.sha = kc.1)
    addObservation (fun st ob hst => ?_) obs ⟨[], []⟩ (by simp)
  exact entries_insertCommit st.uniq ob.2.sha ob.2 rfl hst

/-- Aggregation invariant: the stored SHAs are pairwise distinct. -/
theorem agg_keys_nodup (obs : List (String × CommitInfo)) :
    ((aggregate obs).uniq.map Prod.fst).Nodup := by
  refine foldl_preserve (fun st : AggState => (st.uniq.map Prod.fst).Nodup)
    addObservation (fun st ob hst => ?_) obs ⟨[], []⟩ (by simp)
  exact nodup_insertCommit st.uniq ob.2.sha ob.2 hst

/-- Filtering an absent key yields nothing. -/
theorem filter_key_not_mem (l : List (String × CommitInfo)) (s : String)
    (h : s ∉ l.map Prod.fst) : l.filter (fun kc => kc.1 == s) = [] := by
  induction l with
  | nil => simp
  | cons kv t ih =>
    obtain ⟨k2, v⟩ := kv
    simp only [List.map_cons, List.mem_cons, not_or] at h
    obtain ⟨h1, h2⟩ := h
    rw [List.filter_cons, if_neg (fun hcontra => h1 (eq_of_beq hcontra).symm)]
    exact ih h2

/-- With distinct keys, filtering one key yields the unique entry found. -/
theorem filter_key_of_nodup (l : List (String × CommitInfo)) (s : String)
    (hnd : (l.map Prod.fst).Nodup) :
    l.filter (fun kc => kc.1 == s)
      = match findCommit l s with
        | none => []
        | some c => [(s, c)] := by
  induction l with
  | nil => simp [findCommit]
  | cons kv t ih =>
    obtain ⟨k2, v⟩ := kv
    rw [List.map_cons, List.nodup_cons] at hnd
    obtain ⟨hk2, ht⟩ := hnd
    by_cases h : k2 = s
    · have hfil : List.filter (fun kc => kc.1 == s) ((k2, v) :: t)
          = (k2, v) :: List.filter (fun kc => kc.1 == s) t := by
        rw [List.filter_cons, if_pos (show ((k2, v).1 == s) = true from beq_iff_eq.mpr h)]
      have hfind : findCommit ((k2, v) :: t) s = some v := by
        show (if k2 = s then some v else findCommit t s) = some v
        rw [if_pos h]
      rw [hfil, hfind, filter_key_not_mem t s (h ▸ hk2), h]
    · have hfil : List.filter (fun kc => kc.1 == s) ((k2, v) :: t)
          = List.filter (fun kc => kc.1 == s) t := by
        rw [List.filter_cons, if_neg (fun hcontra => h (eq_of_beq hcontra))]
      have hfind : findCommit ((k2, v) :: t) s = findCommit t s := by
        show (if k2 = s then some v else findCommit t s) = findCommit t s
        rw [if_neg h]
      rw [hfil, hfind]
      exact ih ht

/-- The exported SHAs are exactly the aggregator's keys. -/
theorem exportAgg_map_sha (st : AggState) (hinv : ∀ kc ∈ st.uniq, kc.2.sha = kc.1) :
    (exportAgg st).map (fun fc => fc.info.sha) = st.uniq.map Prod.fst := by
  rw [exportAgg, List.map_map]
  refine List.map_congr_left ?_
  intro kc hkc
  show kc.2.sha = kc.1
  exact hinv kc hkc

/-- A SHA is exported iff some observation carries it. -/
theorem mem_export_sha_iff (obs : List (String × CommitInfo)) (s : String) :
    s ∈ (exportAgg (aggregate obs)).map (fun fc => fc.info.sha)
      ↔ s ∈ obs.map (fun o => o.2.sha) := by
  rw [exportAgg_map_sha _ (agg_entry_key obs)]
  have h1 : findCommit (aggregate obs).uniq s
      = (obs.find? (fun o => o.2.sha == s)).map (fun o => o.2) := by
    rw [show aggregate obs = obs.foldl addObservation ⟨[], []⟩ from rfl,
      findCommit_fold obs ⟨[], []⟩ s]
    rfl
  constructor
  · intro hmem
    have h2 : ¬ findCommit (aggregate obs).uniq s = none := by
      rw [findCommit_eq_none_iff]
      exact fun hn => hn hmem
    rw [h1, Option.map_eq_none'] at h2
    have h3 : (obs.find? (fun o => o.2.sha == s)).isSome = true := by
      cases hf : obs.find? (fun o => o.2.sha == s) with
      | none => exact absurd hf h2
      | some o => rfl
    rw [List.find?_isSome] at h3
    obtain ⟨o, ho, hp⟩ := h3
    rw [List.mem_map]
    exact ⟨o, ho, eq_of_beq hp⟩
  · intro hmem
    rw [List.mem_map] at hmem
    obtain ⟨o, ho, hsha⟩ := hmem
    by_contra hnot
    have h2 : findCommit (aggregate obs).uniq s = none :=
      (findCommit_eq_none_iff _ s).mpr hnot
    rw [h1, Option.map_eq_none', List.find?_eq_none] at h2
    exact h2 o ho (by rw [beq_iff_eq]; exact hsha)

/-- Claim C2 counterexample: two observations of the same SHA from two
equally-named branches (of two different repositories) produce a branch
collection WITH a duplicate entry — branch names are appended per
observation, never deduplicated. -/
theorem dedup_branch_duplicates_counterexample :
    exportAgg (aggregate obsC2) = [{ info := infoC2a, appears_in_branches := "main, main" }]
    ∧ lookupBranches (aggregate obsC2).branchTrack "s" = ["main", "main"]
    ∧ ¬ (["main", "main"] : List String).Nodup := by
  refine ⟨by rfl, by rfl, by decide⟩

/-- Claim C2 as amended: the unique-commit list has exactly one entry per
distinct observed SHA (seeded from the first observation); an entry's branch
collection is the list of originating branches of ALL observations of its
SHA in observation order — duplicate branch names are kept when the same
name is observed more than once; and the SET of exported SHAs is invariant
under permutation of the observations. -/
theorem dedup_collects_all_branches (obs : List (String × CommitInfo)) :
    ((exportAgg (aggregate obs)).map (fun fc => fc.info.sha)).Nodup
    ∧ (∀ s, s ∈ (exportAgg (aggregate obs)).map (fun fc => fc.info.sha)
          ↔ s ∈ obs.map (fun o => o.2.sha))
    ∧ (∀ fc ∈ exportAgg (aggregate obs),
        fc.appears_in_branches
          = String.intercalate ", "
              ((obs.filter (fun o => o.2.sha == fc.info.sha)).map (fun o => o.1)))
    ∧ (∀ obs2, obs.Perm obs2 →
        ((exportAgg (aggregate obs)).map (fun fc => fc.info.sha)).toFinset
          = ((exportAgg (aggregate obs2)).map (fun fc => fc.info.sha)).toFinset) := by
  refine ⟨?_, fun s => mem_export_sha_iff obs s, ?_, ?_⟩
  · rw [exportAgg_map_sha _ (agg_entry_key obs)]
    exact agg_keys_nodup obs
  · intro fc hfc
    rw [exportAgg, List.mem_map] at hfc
    obtain ⟨kc, hkc, hg⟩ := hfc
    have hlk := lookupBranches_fold obs ⟨[], []⟩ kc.2.sha
    rw [show lookupBranches (AggState.branchTrack ⟨[], []⟩) kc.2.sha = [] from rfl,
      List.nil_append] at hlk
    rw [← hg]
    show String.intercalate ", " (lookupBranches (aggregate obs).branchTrack kc.2.sha) = _
    rw [show aggregate obs = obs.foldl addObservation ⟨[], []⟩ from rfl, hlk]
  · intro obs2 hperm
    ext a
    rw [List.mem_toFinset, List.mem_toFinset, mem_export_sha_iff, mem_export_sha_iff]
    exact (hperm.map (fun o => o.2.sha)).mem_iff

/-- Witness for C2 (amended): the exported record for SHA "u", observed on
branches "b1" then "b2", carries the branch collection "b1, b2". -/
theorem dedup_collects_all_branches_witness :
    fcW2.appears_in_branches
      = String.intercalate ", "
          ((obsW2.filter (fun o => o.2.sha == fcW2.info.sha)).map (fun o => o.1)) :=
  (dedup_collects_all_branches obsW2).2.2.1 fcW2 (by decide)

/-- Claim C10: deduplication is keyed on the SHA alone, globally across all
repositories of the run: the exported set has exactly one record for a SHA
observed anywhere, that record's repository/message/author/detail fields are
those of the FIRST observation, and its branch collection lists the
originating branch name of every observation — from every repository,
unqualified by repository. -/
theorem dedup_keyed_on_sha_globally (obs pre suf : List (String × CommitInfo))
    (s b1 : String) (c1 : CommitInfo)
    (hobs : obs = pre ++ (b1, c1) :: suf) (hsha : c1.sha = s)
    (hpre : ∀ o ∈ pre, o.2.sha ≠ s) :
    (exportAgg (aggregate obs)).filter (fun fc => fc.info.sha == s)
      = [{ info := c1
           appears_in_branches := String.intercalate ", "
             ((obs.filter (fun o => o.2.sha == s)).map (fun o => o.1)) }] := by
  have hfind : findCommit (aggregate obs).uniq s = some c1 := by
    have h2 : obs.find? (fun o => o.2.sha == s) = some (b1, c1) := by
      subst hobs
      rw [List.find?_append]
      have hpre0 : pre.find? (fun o => o.2.sha == s) = none := by
        rw [List.find?_eq_none]
        intro x hx
        exact fun hc => hpre x hx (eq_of_beq hc)
      have hcons : List.find? (fun o => o.2.sha == s) ((b1, c1) :: suf) = some (b1, c1) :=
        List.find?_cons_of_pos _ (show ((b1, c1).2.sha == s) = true from beq_iff_eq.mpr hsha)
      rw [hpre0, hcons]
      rfl
    rw [show aggregate obs = obs.foldl addObservation ⟨[], []⟩ from rfl,
      findCommit_fold obs ⟨[], []⟩ s, h2]
    rfl
  have hinv := agg_entry_key obs
  have hnd := agg_keys_nodup obs
  rw [exportAgg, List.filter_map]
  have hcongr : List.filter ((fun fc => fc.info.sha == s) ∘ (fun kc =>
        ({ info := kc.2
           appears_in_branches := String.intercalate ", "
             (lookupBranches (aggregate obs).branchTrack kc.2.sha) } : FinalCommit)))
        (aggregate obs).uniq
      = List.filter (fun kc => kc.1 == s) (aggregate obs).uniq := by
    refine List.filter_congr ?_
    intro kc hkc
    show (kc.2.sha == s) = (kc.1 == s)
    rw [hinv kc hkc]
  rw [hcongr, filter_key_of_nodup _ s hnd, hfind]
  have hlk := lookupBranches_fold obs ⟨[], []⟩ s
  rw [show lookupBranches (AggState.branchTrack ⟨[], []⟩) s = [] from rfl,
    List.nil_append] at hlk
  show [{ info := c1
          appears_in_branches := String.intercalate ", "
            (lookupBranches (aggregate obs).branchTrack c1.sha) }]
    = ([_] : List FinalCommit)
  rw [hsha, show aggregate obs = obs.foldl addObservation ⟨[], []⟩ from rfl, hlk]

/-- Witness for C10: SHA "t" observed on "main" of repository "r1" and then
"dev" of repository "r2" exports as the single record seeded from the first
observation with branch collection "main, dev". -/
theorem dedup_keyed_on_sha_globally_witness :
    (exportAgg (aggregate obsW10)).filter (fun fc => fc.info.sha == "t")
      = [{ info := cW10a, appears_in_branches := "main, dev" }] := by
  have h := dedup_keyed_on_sha_globally obsW10 [] [("dev", cW10b)] "t" "main" cW10a
    rfl rfl (by intro o ho; cases ho)
  rw [h]
  rfl

/-- The detail-fetch trace of one branch fetch is the SHA list of its
yielded commits (when detail fetching is on). -/
theorem fetch_commits_trace (org repo branch : String)
    (pages : List (Except Err (Page RawCommit))) (mem : Option (Finset String))
    (s1 s2 : Option Int) (d : String → Except Err DetailData) :
    (fetch_commits_for_branch org repo branch pages mem s1 s2 true d).2
      = ((fetch_commits_for_branch org repo branch pages mem s1 s2 true d).1).map
          (fun c => c.sha) := by
  rw [fetch_commits_for_branch, fetch_commits_go_spec]
  simp only [List.nil_append, if_true, List.map_map]
  refine (List.map_congr_left ?_).symm
  intro raw hraw
  rfl

/-- The branch-level collection step keeps the trace equal to the SHAs of
its tagged observations. -/
theorem collectBranch_trace (org repo branch : String) (env : Env)
    (mem : Option (Finset String)) :
    (collectBranch org repo branch env mem true).2
      = (collectBranch org repo branch env mem true).1.map (fun o => o.2.sha) := by
  rw [collectBranch]
  simp only [List.map_map]
  rw [fetch_commits_trace]
  refine List.map_congr_left ?_
  intro c hc
  rfl

/-- Claim C1 (amended): detail fetching happens inside the per-branch commit
fetch, once per yielded commit OCCURRENCE — the traversal's detail-fetch
trace is exactly the SHA of every observation fed to the aggregator, so a
commit appearing on K branches incurs K detail fetches, not one. -/
theorem detail_fetch_per_occurrence (org : String) (env : Env) (repos : List String)
    (mem : Option (Finset String)) :
    (collectObs org env repos mem true).2
      = ((collectObs org env repos mem true).1).map (fun o => o.2.sha)
    ∧ ∀ s, ((collectObs org env repos mem true).2).count s
        = (((collectObs org env repos mem true).1).filter (fun o => o.2.sha == s)).length := by
  have hmain : (collectObs org env repos mem true).2
      = ((collectObs org env repos mem true).1).map (fun o => o.2.sha) := by
    rw [collectObs]
    refine foldl_preserve
      (fun a : List (String × CommitInfo) × List String => a.2 = a.1.map (fun o => o.2.sha))
      (fun a repo => collectRepo org repo env mem true a) ?_ repos ([], []) rfl
    intro a repo ha
    unfold collectRepo
    refine foldl_preserve
      (fun a : List (String × CommitInfo) × List String => a.2 = a.1.map (fun o => o.2.sha))
      _ ?_ (fetch_branches (env.branchPages repo)) a ha
    intro b branch hb
    show b.2 ++ (collectBranch org repo branch env mem true).2
      = (b.1 ++ (collectBranch org repo branch env mem true).1).map (fun o => o.2.sha)
    rw [List.map_append, hb, collectBranch_trace]
  refine ⟨hmain, fun s => ?_⟩
  rw [hmain, List.count, List.countP_map, List.countP_eq_length_filter]
  rfl

/-- Claim C1 counterexample: in a run with one repository, two branches and
one commit (SHA "abc") listed on both branches, the detail fetch for "abc"
is invoked twice — once per branch occurrence, not at most once per SHA. -/
theorem detail_fetch_counterexample :
    List.count "abc" traceC1 = 2 ∧ ¬ List.count "abc" traceC1 ≤ 1 := by decide

end Aigit
